import Mathlib

/-!  Verification development for the `treewalker` directory-tree renderer
(`src/main.rs`).

The program is shallowly embedded as follows.

* The filesystem is an inductive tree `FSNode`: a `file`, a readable
  directory `dir` with its children in enumeration order, or a directory
  `baddir` whose enumeration by the directory walker fails with the given
  error description (e.g. permission denied).  Names are the final path
  components; Lean `String` ordering (lexicographic by code point) agrees
  with Rust's byte-wise ordering of the corresponding UTF-8 names.
* `get_dir_entries` mirrors the Rust function of the same name: walk the
  immediate children, skip hidden names when requested, sort directories
  first and then by name.
* `print_tree` mirrors the recursive renderer; the `for (i, entry)`
  loop is `render_loop`, with the source's `i == entries.len() - 1`
  last-sibling test (natural subtraction; `render_loop_chk` below models
  the checked subtraction and is proved panic-free).
* Printing is modelled by returning the list of emitted stdout lines next
  to the `Result`; on an error the list holds exactly the lines the Rust
  program printed before failing.
* `main_run` models `main` after successful argument parsing: the render
  result is mapped to diagnostic stderr lines and a process exit code.
-/

namespace Treewalker

/-- A filesystem object as the program can observe it.  `baddir` is a
directory (so `is_dir` holds) whose enumeration fails with error text
`msg`. -/
inductive FSNode : Type where
  | file (nm : String)
  | dir (nm : String) (children : List FSNode)
  | baddir (nm : String) (msg : String)

/-- The final path component of the entry, `entry.file_name()`. -/
def FSNode.name : FSNode → String
  | .file nm => nm
  | .dir nm _ => nm
  | .baddir nm _ => nm

/-- The `path.is_dir()` metadata query. -/
def FSNode.is_dir : FSNode → Bool
  | .file _ => false
  | .dir _ _ => true
  | .baddir _ _ => true

/-- Lexicographic comparison of character lists by code point.  For the
(valid-UTF-8) names occurring here this is exactly Rust's byte-wise
`Ord` on the final path components, since UTF-8 byte order agrees with
code-point order. -/
def charListLE : List Char → List Char → Bool
  | [], _ => true
  | _ :: _, [] => false
  | a :: as, b :: bs =>
    if a < b then true else if b < a then false else charListLE as bs

/-- Strict lexicographic comparison of character lists by code point. -/
def charListLT : List Char → List Char → Bool
  | [], [] => false
  | [], _ :: _ => true
  | _ :: _, [] => false
  | a :: as, b :: bs =>
    if a < b then true else if b < a then false else charListLT as bs

/-- Byte-wise (code-point-wise) `≤` on names, Rust's `a.cmp(b) != Greater`
for sibling paths. -/
def strLE (a b : String) : Bool := charListLE a.data b.data

/-- Byte-wise (code-point-wise) `<` on names. -/
def strLT (a b : String) : Bool := charListLT a.data b.data

/-- `name.starts_with('.')`: the first character is a dot (false for the
empty name). -/
def startsWithDot (s : String) : Bool :=
  match s.data with
  | [] => false
  | c :: _ => c == '.'

mutual

/-- Number of filesystem objects in a tree (termination measure). -/
def FSNode.size : FSNode → Nat
  | .file _ => 1
  | .dir _ children => 1 + FSNode.sizeList children
  | .baddir _ _ => 1

/-- Total size of a list of trees. -/
def FSNode.sizeList : List FSNode → Nat
  | [] => 0
  | e :: rest => FSNode.size e + FSNode.sizeList rest

end

theorem FSNode.size_pos (e : FSNode) : 1 ≤ e.size := by
  cases e with
  | file nm => simp [FSNode.size]
  | dir nm children => simp [FSNode.size]
  | baddir nm msg => simp [FSNode.size]

theorem FSNode.sizeList_eq_sum (l : List FSNode) :
    FSNode.sizeList l = (l.map FSNode.size).sum := by
  induction l with
  | nil => simp [FSNode.sizeList]
  | cons e rest ih => simp [FSNode.sizeList, ih]

theorem FSNode.size_le_sizeList_of_mem {e : FSNode} {l : List FSNode}
    (h : e ∈ l) : e.size ≤ FSNode.sizeList l := by
  induction l with
  | nil => cases h
  | cons x rest ih =>
    rcases List.mem_cons.mp h with h1 | h2
    · subst h1
      simp [FSNode.sizeList]
    · have := ih h2
      simp [FSNode.sizeList]
      omega

theorem FSNode.sizeList_filter_le (p : FSNode → Bool) (l : List FSNode) :
    FSNode.sizeList (l.filter p) ≤ FSNode.sizeList l := by
  induction l with
  | nil => simp
  | cons e rest ih =>
    by_cases hp : p e
    · simp [List.filter_cons, hp, FSNode.sizeList]
      omega
    · simp [List.filter_cons, hp, FSNode.sizeList]
      have := FSNode.size_pos e
      omega

theorem FSNode.sizeList_perm {l₁ l₂ : List FSNode} (h : l₁.Perm l₂) :
    FSNode.sizeList l₁ = FSNode.sizeList l₂ := by
  rw [FSNode.sizeList_eq_sum, FSNode.sizeList_eq_sum]
  exact (h.map FSNode.size).sum_eq

/-- The error type of the renderer, `enum FileTreeError`.  The payloads of
`Io` and `Walkdir` stand for the display text of the underlying OS /
walker error. -/
inductive FileTreeError : Type where
  | Io (msg : String)
  | Walkdir (msg : String)
  | InvalidPath
deriving DecidableEq

/-- The `From<io::Error> for FileTreeError` conversion.  It exists in the
source but (as proved below) no renderer code path applies it. -/
def fileTreeError_ofIoError (msg : String) : FileTreeError :=
  FileTreeError.Io msg

/-- The `From<walkdir::Error> for FileTreeError` conversion, used by the
`?` operator inside `get_dir_entries`. -/
def fileTreeError_ofWalkdirError (msg : String) : FileTreeError :=
  FileTreeError.Walkdir msg

/-- The sort comparator of `get_dir_entries` as a boolean `le`:
directories first, then (full path, which for siblings means final name)
byte order.  This is `cmp(a, b) ≠ Greater` for the Rust comparator. -/
def entryLE (a b : FSNode) : Bool :=
  if a.is_dir = b.is_dir then strLE a.name b.name else a.is_dir

/-- The enumeration filter: an entry is kept unless `ignore_hidden` is set
and its name starts with a dot. -/
def keep (ignore_hidden : Bool) (e : FSNode) : Bool :=
  !(ignore_hidden && startsWithDot e.name)

/-- Stable insertion of an entry into a sorted list. -/
def orderedInsert (le : FSNode → FSNode → Bool) (a : FSNode) :
    List FSNode → List FSNode
  | [] => [a]
  | b :: l => if le a b then a :: b :: l else b :: orderedInsert le a l

/-- Model of `entries.sort_by(..)`: a stable sort by the comparator.
Rust's `sort_by` is also stable, and under the given comparator any two
stable sorts agree. -/
def sortEntries (le : FSNode → FSNode → Bool) : List FSNode → List FSNode
  | [] => []
  | a :: l => orderedInsert le a (sortEntries le l)

/-- Model of `get_dir_entries`: enumerate the immediate children
(`WalkDir::new(path).min_depth(1).max_depth(1)`), aborting with a
`Walkdir` error if the walk fails, drop filtered-out names, and sort with
the directories-first comparator. -/
def get_dir_entries : FSNode → Bool → Except FileTreeError (List FSNode)
  | .file _, _ => .ok []
  | .baddir _ msg, _ => .error (fileTreeError_ofWalkdirError msg)
  | .dir _ children, ignore_hidden =>
      .ok (sortEntries entryLE (children.filter (keep ignore_hidden)))

theorem orderedInsert_perm (le : FSNode → FSNode → Bool) (a : FSNode)
    (l : List FSNode) : (orderedInsert le a l).Perm (a :: l) := by
  induction l with
  | nil => simp [orderedInsert]
  | cons b rest ih =>
    rw [orderedInsert]
    by_cases hle : le a b
    · simp [hle]
    · simp only [hle, if_false]
      exact (ih.cons b).trans (List.Perm.swap a b rest)

theorem sortEntries_perm (le : FSNode → FSNode → Bool) (l : List FSNode) :
    (sortEntries le l).Perm l := by
  induction l with
  | nil => simp [sortEntries]
  | cons a rest ih =>
    rw [sortEntries]
    exact (orderedInsert_perm le a (sortEntries le rest)).trans (ih.cons a)

theorem mem_orderedInsert {le : FSNode → FSNode → Bool} {a x : FSNode}
    {l : List FSNode} :
    x ∈ orderedInsert le a l ↔ x = a ∨ x ∈ l := by
  rw [(orderedInsert_perm le a l).mem_iff]
  exact List.mem_cons

theorem sizeList_get_dir_entries_lt {node : FSNode} {ih : Bool}
    {l : List FSNode} (h : get_dir_entries node ih = .ok l) :
    FSNode.sizeList l < node.size := by
  cases node with
  | file nm =>
    simp only [get_dir_entries, Except.ok.injEq] at h
    subst h
    simp [FSNode.sizeList, FSNode.size]
  | baddir nm msg => simp [get_dir_entries] at h
  | dir nm children =>
    simp only [get_dir_entries, Except.ok.injEq] at h
    subst h
    have h1 := FSNode.sizeList_perm
      (sortEntries_perm entryLE (children.filter (keep ih)))
    have h2 := FSNode.sizeList_filter_le (keep ih) children
    simp [FSNode.size]
    omega

mutual

/-- Model of `print_tree`: validate that the path is a directory, list the
entries, then emit one line per entry and recurse into subdirectories.
The first component is the list of stdout lines emitted (in order), the
second the returned `Result` (`none` = `Ok(())`). -/
def print_tree (node : FSNode) (pre : String) (ignore_hidden : Bool) :
    List String × Option FileTreeError :=
  if node.is_dir = false then
    ([], some FileTreeError.InvalidPath)
  else
    match h : get_dir_entries node ignore_hidden with
    | .error e => ([], some e)
    | .ok entries => render_loop entries.length pre ignore_hidden 0 entries
termination_by 2 * node.size
decreasing_by
  have := sizeList_get_dir_entries_lt h
  omega

/-- The `for (i, entry) in entries.iter().enumerate()` loop of
`print_tree`; `n` is `entries.len()`, `i` the enumeration index, and `l`
the remaining entries.  `i == n - 1` is the source's last-sibling test
(natural subtraction, see `render_loop_chk`). -/
def render_loop (n : Nat) (pre : String) (ignore_hidden : Bool)
    (i : Nat) (l : List FSNode) : List String × Option FileTreeError :=
  match l with
  | [] => ([], none)
  | e :: rest =>
    let is_last := i == n - 1
    let new_pre := if is_last then pre ++ "└── " else pre ++ "├── "
    let cont := if is_last then pre ++ "    " else pre ++ "│   "
    if e.is_dir then
      let sub := print_tree e cont ignore_hidden
      match sub.2 with
      | some err => ((new_pre ++ e.name ++ "/") :: sub.1, some err)
      | none =>
        let restres := render_loop n pre ignore_hidden (i + 1) rest
        ((new_pre ++ e.name ++ "/") :: (sub.1 ++ restres.1), restres.2)
    else
      let restres := render_loop n pre ignore_hidden (i + 1) rest
      ((new_pre ++ e.name) :: restres.1, restres.2)
termination_by 2 * FSNode.sizeList l + 1
decreasing_by
  · have := FSNode.size_pos e
    simp [FSNode.sizeList]
    omega
  · have := FSNode.size_pos e
    simp [FSNode.sizeList]
    omega
  · have := FSNode.size_pos e
    simp [FSNode.sizeList]
    omega

end

/-- Reformulation of `render_loop` that detects the last sibling by the
remaining list being a singleton instead of by index arithmetic; proved
equal to `render_loop` (for the indices the program uses) in
`render_loop_eq_render_entries`. -/
def render_entries (pre : String) (ignore_hidden : Bool) :
    List FSNode → List String × Option FileTreeError
  | [] => ([], none)
  | e :: rest =>
    let is_last := rest.isEmpty
    let new_pre := if is_last then pre ++ "└── " else pre ++ "├── "
    let cont := if is_last then pre ++ "    " else pre ++ "│   "
    if e.is_dir then
      let sub := print_tree e cont ignore_hidden
      match sub.2 with
      | some err => ((new_pre ++ e.name ++ "/") :: sub.1, some err)
      | none =>
        let restres := render_entries pre ignore_hidden rest
        ((new_pre ++ e.name ++ "/") :: (sub.1 ++ restres.1), restres.2)
    else
      let restres := render_entries pre ignore_hidden rest
      ((new_pre ++ e.name) :: restres.1, restres.2)

/-- Mark each entry of a listing with its `is_last` flag. -/
def withLast : List FSNode → List (FSNode × Bool)
  | [] => []
  | [a] => [(a, true)]
  | a :: b :: rest => (a, false) :: withLast (b :: rest)

/-- The lines a fully rendered entry contributes to its parent's output:
its own branch line (name plus `/` exactly for directories), then, for a
directory, the whole recursively rendered subtree under the continuation
prefix. -/
def entryBlock (pre : String) (ignore_hidden : Bool) (p : FSNode × Bool) :
    List String :=
  (pre ++ (if p.2 then "└── " else "├── ") ++ p.1.name ++
      (if p.1.is_dir then "/" else "")) ::
    (if p.1.is_dir then
      (print_tree p.1 (pre ++ (if p.2 then "    " else "│   ")) ignore_hidden).1
    else [])

mutual

/-- Remove every hidden entry (name starting with a dot), at every depth,
keeping everything else in place. -/
def stripHidden : FSNode → FSNode
  | .file nm => .file nm
  | .baddir nm msg => .baddir nm msg
  | .dir nm children => .dir nm (stripList children)

/-- `stripHidden` applied across a child list. -/
def stripList : List FSNode → List FSNode
  | [] => []
  | c :: rest =>
    if startsWithDot c.name then stripList rest
    else stripHidden c :: stripList rest

end

mutual

/-- `print_tree` with the `entries.len() - 1` subtraction checked: the
result is `none` when the subtraction would underflow (the `usize`
arithmetic panic of the source in debug builds), and `some` of the
rendering otherwise. -/
def print_tree_chk (node : FSNode) (pre : String) (ignore_hidden : Bool) :
    Option (List String × Option FileTreeError) :=
  if node.is_dir = false then
    some ([], some FileTreeError.InvalidPath)
  else
    match h : get_dir_entries node ignore_hidden with
    | .error e => some ([], some e)
    | .ok entries => render_loop_chk entries.length pre ignore_hidden 0 entries
termination_by 2 * node.size
decreasing_by
  have := sizeList_get_dir_entries_lt h
  omega

/-- The loop of `print_tree_chk`: evaluating `n - 1` with `n = 0` is the
underflow panic, modelled by `none`. -/
def render_loop_chk (n : Nat) (pre : String) (ignore_hidden : Bool)
    (i : Nat) (l : List FSNode) :
    Option (List String × Option FileTreeError) :=
  match l with
  | [] => some ([], none)
  | e :: rest =>
    if n = 0 then none
    else
      let is_last := i == n - 1
      let new_pre := if is_last then pre ++ "└── " else pre ++ "├── "
      let cont := if is_last then pre ++ "    " else pre ++ "│   "
      if e.is_dir then
        match print_tree_chk e cont ignore_hidden with
        | none => none
        | some sub =>
          match sub.2 with
          | some err => some ((new_pre ++ e.name ++ "/") :: sub.1, some err)
          | none =>
            match render_loop_chk n pre ignore_hidden (i + 1) rest with
            | none => none
            | some restres =>
              some ((new_pre ++ e.name ++ "/") :: (sub.1 ++ restres.1), restres.2)
      else
        match render_loop_chk n pre ignore_hidden (i + 1) rest with
        | none => none
        | some restres => some ((new_pre ++ e.name) :: restres.1, restres.2)
termination_by 2 * FSNode.sizeList l + 1
decreasing_by
  · have := FSNode.size_pos e
    simp [FSNode.sizeList]
    omega
  · have := FSNode.size_pos e
    simp [FSNode.sizeList]
    omega
  · have := FSNode.size_pos e
    simp [FSNode.sizeList]
    omega

end

theorem render_loop_eq_render_entries (pre : String) (ignore_hidden : Bool) :
    ∀ (l : List FSNode) (i n : Nat), n = i + l.length →
      render_loop n pre ignore_hidden i l = render_entries pre ignore_hidden l := by
  intro l
  induction l with
  | nil =>
    intro i n hn
    rw [render_loop, render_entries]
  | cons e rest ihl =>
    intro i n hn
    have hlast : (i == n - 1) = rest.isEmpty := by
      subst hn
      cases rest with
      | nil => simp
      | cons x xs =>
        simp only [List.length_cons, List.isEmpty_cons]
        have : i ≠ i + (x :: xs).length + 1 - 1 := by
          simp only [List.length_cons]
          omega
        simpa using this
    rw [render_loop, render_entries]
    simp only [hlast]
    rw [ihl (i + 1) n (by subst hn; simp [List.length_cons]; omega)]

/-- Unfolding of `print_tree` on a readable directory in terms of
`render_entries`. -/
theorem print_tree_dir (nm : String) (children : List FSNode)
    (pre : String) (ignore_hidden : Bool) :
    print_tree (.dir nm children) pre ignore_hidden =
      render_entries pre ignore_hidden
        (sortEntries entryLE (children.filter (keep ignore_hidden))) := by
  rw [print_tree]
  simp only [FSNode.is_dir, get_dir_entries, Bool.true_eq_false, if_false]
  exact render_loop_eq_render_entries pre ignore_hidden _ 0 _ (Nat.zero_add _).symm

/-- What `main` does after `clap` has accepted the arguments: the lines
written to stdout, the diagnostic lines written to stderr, and the
process exit status.  `target` is the filesystem object the `path`
argument denotes (`none` when no such object exists). -/
structure MainOutput : Type where
  out : List String
  errLines : List String
  exitCode : Nat
deriving DecidableEq

/-- The top-level renderer invocation `print_tree(Path::new(path), "",
ignore_hidden)`.  A nonexistent path has `is_dir() = false`, so it fails
the directory validation exactly like a regular file. -/
def run_render (target : Option FSNode) (ignore_hidden : Bool) :
    List String × Option FileTreeError :=
  match target with
  | none => ([], some FileTreeError.InvalidPath)
  | some node => print_tree node "" ignore_hidden

/-- Model of `main` after argument parsing: run the renderer, then map
the result through the `match` at the bottom of `main`.  Note that every
arm of that `match` falls through to the end of `main`, so the process
exit status is `0` in all four cases. -/
def main_run (target : Option FSNode) (path : String) (ignore_hidden : Bool) :
    MainOutput :=
  let r := run_render target ignore_hidden
  match r.2 with
  | none => ⟨r.1, [], 0⟩
  | some (.Io msg) => ⟨r.1, ["Error reading the directory: " ++ msg], 0⟩
  | some (.Walkdir msg) => ⟨r.1, ["Error walking the directory: " ++ msg], 0⟩
  | some .InvalidPath => ⟨r.1, ["Invalid directory path: " ++ path], 0⟩

theorem charListLE_total : ∀ as bs : List Char,
    charListLE as bs = true ∨ charListLE bs as = true := by
  intro as
  induction as with
  | nil => intro bs; left; rw [charListLE]
  | cons a as ih =>
    intro bs
    cases bs with
    | nil => right; rw [charListLE]
    | cons b bs =>
      rcases lt_trichotomy a b with h | h | h
      · left; simp [charListLE, h]
      · subst h
        rcases ih bs with h2 | h2
        · left; simp [charListLE, lt_irrefl, h2]
        · right; simp [charListLE, lt_irrefl, h2]
      · right; simp [charListLE, h]

theorem charListLE_trans : ∀ as bs cs : List Char,
    charListLE as bs = true → charListLE bs cs = true →
    charListLE as cs = true := by
  intro as
  induction as with
  | nil => intro bs cs h1 h2; rw [charListLE]
  | cons a as ih =>
    intro bs cs h1 h2
    cases bs with
    | nil => rw [charListLE] at h1; exact absurd h1 (by simp)
    | cons b bs =>
      cases cs with
      | nil => rw [charListLE] at h2; exact absurd h2 (by simp)
      | cons c cs =>
        rw [charListLE] at h1 h2 ⊢
        by_cases hab : a < b
        · by_cases hbc : b < c
          · simp [lt_trans hab hbc]
          · by_cases hcb : c < b
            · simp [hbc, hcb] at h2
            · have : b = c := le_antisymm (not_lt.mp hcb) (not_lt.mp hbc)
              subst this
              simp [hab]
        · by_cases hba : b < a
          · simp [hab, hba] at h1
          · have : a = b := le_antisymm (not_lt.mp hba) (not_lt.mp hab)
            subst this
            by_cases hbc : a < c
            · simp [hbc]
            · by_cases hcb : c < a
              · simp [hbc, hcb] at h2
              · have : a = c := le_antisymm (not_lt.mp hcb) (not_lt.mp hbc)
                subst this
                simp only [lt_irrefl, if_false]
                simp only [lt_irrefl, if_false] at h1 h2
                exact ih bs cs h1 h2

theorem charListLT_of_le_of_ne : ∀ as bs : List Char,
    charListLE as bs = true → as ≠ bs → charListLT as bs = true := by
  intro as
  induction as with
  | nil =>
    intro bs h1 h2
    cases bs with
    | nil => exact absurd rfl h2
    | cons b bs => rw [charListLT]
  | cons a as ih =>
    intro bs h1 h2
    cases bs with
    | nil => rw [charListLE] at h1; exact absurd h1 (by simp)
    | cons b bs =>
      rw [charListLE] at h1
      rw [charListLT]
      by_cases hab : a < b
      · simp [hab]
      · by_cases hba : b < a
        · simp [hab, hba] at h1
        · have : a = b := le_antisymm (not_lt.mp hba) (not_lt.mp hab)
          subst this
          simp only [lt_irrefl, if_false] at h1 ⊢
          exact ih bs h1 (fun hEq => h2 (by rw [hEq]))

theorem entryLE_total (a b : FSNode) :
    entryLE a b = true ∨ entryLE b a = true := by
  rw [entryLE, entryLE]
  by_cases h : a.is_dir = b.is_dir
  · simp only [h, if_true, if_pos rfl]
    exact charListLE_total a.name.data b.name.data
  · have h2 : ¬ b.is_dir = a.is_dir := fun e => h e.symm
    simp only [h, h2, if_false]
    cases ha : a.is_dir with
    | true => left; rfl
    | false =>
      cases hb : b.is_dir with
      | true => right; rfl
      | false => exact absurd (ha.trans hb.symm) h

theorem entryLE_trans (a b c : FSNode) (h1 : entryLE a b = true)
    (h2 : entryLE b c = true) : entryLE a c = true := by
  rw [entryLE] at h1 h2 ⊢
  by_cases hab : a.is_dir = b.is_dir
  · by_cases hbc : b.is_dir = c.is_dir
    · simp only [hab, if_true, if_pos rfl] at h1
      simp only [hbc, if_true, if_pos rfl] at h2
      simp only [hab.trans hbc, if_true, if_pos rfl]
      exact charListLE_trans _ _ _ h1 h2
    · simp only [hbc, if_false] at h2
      have hac : ¬ a.is_dir = c.is_dir := by rw [hab]; exact hbc
      simp only [hac, if_false]
      rw [hab]; exact h2
  · simp only [hab, if_false] at h1
    by_cases hbc : b.is_dir = c.is_dir
    · have hac : ¬ a.is_dir = c.is_dir := by rw [← hbc]; exact hab
      simp only [hac, if_false]
      exact h1
    · simp only [hbc, if_false] at h2
      exact absurd (h1.trans h2.symm) hab

theorem pairwise_orderedInsert (le : FSNode → FSNode → Bool)
    (htotal : ∀ a b, le a b = true ∨ le b a = true)
    (htrans : ∀ a b c, le a b = true → le b c = true → le a c = true)
    (a : FSNode) (l : List FSNode)
    (hl : l.Pairwise (fun x y => le x y = true)) :
    (orderedInsert le a l).Pairwise (fun x y => le x y = true) := by
  induction l with
  | nil => simp [orderedInsert]
  | cons b rest ih =>
    rw [orderedInsert]
    rcases List.pairwise_cons.mp hl with ⟨hb, hrest⟩
    by_cases hab : le a b = true
    · simp only [hab, if_true]
      refine List.pairwise_cons.mpr ⟨?_, hl⟩
      intro x hx
      rcases List.mem_cons.mp hx with rfl | hx2
      · exact hab
      · exact htrans a b x hab (hb x hx2)
    · have hab2 : le a b = false := by
        cases hle : le a b
        · rfl
        · exact absurd hle hab
      simp only [hab2, Bool.false_eq_true, if_false]
      have hba : le b a = true := by
        rcases htotal a b with h | h
        · exact absurd h hab
        · exact h
      refine List.pairwise_cons.mpr ⟨?_, ih hrest⟩
      intro x hx
      rcases mem_orderedInsert.mp hx with rfl | hx2
      · exact hba
      · exact hb x hx2

theorem pairwise_sortEntries (le : FSNode → FSNode → Bool)
    (htotal : ∀ a b, le a b = true ∨ le b a = true)
    (htrans : ∀ a b c, le a b = true → le b c = true → le a c = true)
    (l : List FSNode) :
    (sortEntries le l).Pairwise (fun x y => le x y = true) := by
  induction l with
  | nil => simp [sortEntries]
  | cons a rest ih =>
    rw [sortEntries]
    exact pairwise_orderedInsert le htotal htrans a _ ih

theorem render_entries_ok (pre : String) (ib : Bool) :
    ∀ l : List FSNode, (render_entries pre ib l).2 = none →
      render_entries pre ib l = ((withLast l).flatMap (entryBlock pre ib), none) := by
  intro l
  induction l with
  | nil => intro h; rfl
  | cons e rest ih =>
    intro h
    cases rest with
    | nil =>
      rw [render_entries] at h ⊢
      simp only [List.isEmpty_nil, if_true] at h ⊢
      by_cases hd : e.is_dir = true
      · simp only [hd, if_true] at h ⊢
        rcases hs2 : (print_tree e (pre ++ "    ") ib).2 with _ | err
        · simp only [hs2] at h ⊢
          simp [withLast, entryBlock, hd, render_entries]
        · simp only [hs2] at h
          exact Option.noConfusion h
      · simp only [hd, if_false] at h ⊢
        simp only [Bool.not_eq_true] at hd
        simp [withLast, entryBlock, hd, render_entries]
    | cons f rest2 =>
      rw [render_entries] at h ⊢
      simp only [List.isEmpty_cons, Bool.false_eq_true, if_false] at h ⊢
      by_cases hd : e.is_dir = true
      · simp only [hd, if_true] at h ⊢
        rcases hs2 : (print_tree e (pre ++ "│   ") ib).2 with _ | err
        · simp only [hs2] at h ⊢
          have hr := ih h
          rw [hr]
          simp [withLast, entryBlock, hd]
        · simp only [hs2] at h
          exact Option.noConfusion h
      · simp only [hd, if_false] at h ⊢
        simp only [Bool.not_eq_true] at hd
        have hr := ih h
        rw [hr]
        simp [withLast, entryBlock, hd]

theorem render_entries_err (pre : String) (ib : Bool) :
    ∀ (l : List FSNode) (lines : List String) (err : FileTreeError),
      render_entries pre ib l = (lines, some err) →
      ∃ done e post sub,
        l = done ++ e :: post ∧ e.is_dir = true ∧
        (∀ x ∈ done, x.is_dir = true →
          (print_tree x (pre ++ "│   ") ib).2 = none) ∧
        print_tree e (if post.isEmpty then pre ++ "    " else pre ++ "│   ") ib
          = (sub, some err) ∧
        lines = done.flatMap (fun x => entryBlock pre ib (x, false)) ++
          ((if post.isEmpty then pre ++ "└── " else pre ++ "├── ") ++
            e.name ++ "/") :: sub := by
  intro l
  induction l with
  | nil =>
    intro lines err h
    rw [render_entries] at h
    exact absurd (congrArg Prod.snd h) (by simp)
  | cons e rest ih =>
    intro lines err h
    rw [render_entries] at h
    by_cases hd : e.is_dir = true
    · simp only [hd, if_true] at h
      rcases hs : (print_tree e (if rest.isEmpty = true then pre ++ "    "
          else pre ++ "│   ") ib) with ⟨sublines, s2⟩
      rcases s2 with _ | err0
      · -- subtree of `e` succeeded, so the error comes from `rest`
        simp only [hs] at h
        cases rest with
        | nil =>
          simp only [render_entries] at h
          exact absurd (congrArg Prod.snd h) (by simp)
        | cons f rest2 =>
          have h2 : render_entries pre ib (f :: rest2) =
              ((render_entries pre ib (f :: rest2)).1, some err) := by
            have := congrArg Prod.snd h
            simp at this
            rw [Prod.ext_iff]
            exact ⟨rfl, this⟩
          rcases ih _ _ h2 with ⟨done, e1, post, sub, hsplit, he1, hdone, hfail, hlines⟩
          refine ⟨e :: done, e1, post, sub, by rw [hsplit, List.cons_append], he1, ?_, hfail, ?_⟩
          · intro x hx hxd
            rcases List.mem_cons.mp hx with rfl | hx2
            · simp only [List.isEmpty_cons, Bool.false_eq_true, if_false] at hs
              rw [hs]
            · exact hdone x hx2 hxd
          · have hlines1 : lines = (pre ++ "├── " ++ e.name ++ "/") ::
                (sublines ++ (render_entries pre ib (f :: rest2)).1) := by
              have := congrArg Prod.fst h
              simp only [List.isEmpty_cons, Bool.false_eq_true, if_false] at this
              simpa using this.symm
            rw [hlines1, hlines]
            simp only [List.isEmpty_cons, Bool.false_eq_true, if_false] at hs
            simp [entryBlock, hd, hs]
      · -- the subtree of `e` itself failed: nothing after it is rendered
        simp only [hs] at h
        refine ⟨[], e, rest, sublines, rfl, hd, by simp, ?_, ?_⟩
        · have h2 := congrArg Prod.snd h
          simp only at h2
          rw [hs]
          cases rest with
          | nil =>
            simp only [List.isEmpty_nil, if_true] at hs ⊢
            simp at h2
            rw [h2]
          | cons f rest2 =>
            simp only [List.isEmpty_cons, Bool.false_eq_true, if_false] at hs ⊢
            simp at h2
            rw [h2]
        · have h1 := congrArg Prod.fst h
          simp only at h1
          cases rest with
          | nil =>
            simp only [List.isEmpty_nil, if_true] at h1 ⊢
            simp [h1.symm]
          | cons f rest2 =>
            simp only [List.isEmpty_cons, Bool.false_eq_true, if_false] at h1 ⊢
            simp [h1.symm]
    · -- `e` is a file: it renders one line and the error comes from `rest`
      have hdf : e.is_dir = false := by
        cases hdd : e.is_dir
        · rfl
        · exact absurd hdd hd
      simp only [hdf, Bool.false_eq_true, if_false] at h
      cases rest with
      | nil =>
        simp only [render_entries] at h
        exact absurd (congrArg Prod.snd h) (by simp)
      | cons f rest2 =>
        have h2 : render_entries pre ib (f :: rest2) =
            ((render_entries pre ib (f :: rest2)).1, some err) := by
          have := congrArg Prod.snd h
          simp at this
          rw [Prod.ext_iff]
          exact ⟨rfl, this⟩
        rcases ih _ _ h2 with ⟨done, e1, post, sub, hsplit, he1, hdone, hfail, hlines⟩
        refine ⟨e :: done, e1, post, sub, by rw [hsplit, List.cons_append], he1, ?_, hfail, ?_⟩
        · intro x hx hxd
          rcases List.mem_cons.mp hx with rfl | hx2
          · exact absurd hxd hd
          · exact hdone x hx2 hxd
        · have hlines1 : lines = (pre ++ "├── " ++ e.name) ::
              (render_entries pre ib (f :: rest2)).1 := by
            have := congrArg Prod.fst h
            simp only [List.isEmpty_cons, Bool.false_eq_true, if_false] at this
            simpa using this.symm
          rw [hlines1, hlines]
          simp [entryBlock, hdf]

theorem mem_sortEntries {le : FSNode → FSNode → Bool} {x : FSNode}
    {l : List FSNode} :
    x ∈ sortEntries le l ↔ x ∈ l :=
  (sortEntries_perm le l).mem_iff

theorem size_lt_of_mem_entries {le : FSNode → FSNode → Bool}
    {p : FSNode → Bool} {c : FSNode} {children : List FSNode}
    (hc : c ∈ sortEntries le (children.filter p)) :
    c.size < 1 + FSNode.sizeList children := by
  have h1 := mem_sortEntries.mp hc
  have h2 := List.mem_of_mem_filter h1
  have h3 := FSNode.size_le_sizeList_of_mem h2
  omega

theorem render_entries_lines_pre (ib : Bool) :
    ∀ (l : List FSNode)
      (hp : ∀ c ∈ l, ∀ (p2 : String) (line : String),
        line ∈ (print_tree c p2 ib).1 → ∃ s, line = p2 ++ s)
      (pre : String) (line : String),
      line ∈ (render_entries pre ib l).1 → ∃ s, line = pre ++ s := by
  intro l
  induction l with
  | nil =>
    intro hp pre line h
    rw [render_entries] at h
    exact absurd h (by simp)
  | cons e rest ih =>
    intro hp pre line h
    rw [render_entries] at h
    have hpe := hp e (List.mem_cons_self e rest)
    have hprest : ∀ c ∈ rest, ∀ (p2 : String) (line : String),
        line ∈ (print_tree c p2 ib).1 → ∃ s, line = p2 ++ s :=
      fun c hc => hp c (List.mem_cons_of_mem e hc)
    by_cases hd : e.is_dir = true
    · simp only [hd, if_true] at h
      rcases hs : (print_tree e (if rest.isEmpty = true then pre ++ "    "
          else pre ++ "│   ") ib) with ⟨sublines, s2⟩
      rw [hs] at h
      have hsub : ∀ line ∈ sublines, ∃ s, line = pre ++ s := by
        intro li hli
        have : li ∈ (print_tree e (if rest.isEmpty = true then pre ++ "    "
            else pre ++ "│   ") ib).1 := by rw [hs]; exact hli
        rcases hpe _ li this with ⟨s, hs2⟩
        cases hre : rest.isEmpty with
        | false =>
          simp only [hre, Bool.false_eq_true, if_false] at hs2
          exact ⟨"│   " ++ s, by rw [hs2, String.append_assoc]⟩
        | true =>
          simp only [hre, if_true] at hs2
          exact ⟨"    " ++ s, by rw [hs2, String.append_assoc]⟩
      rcases s2 with _ | err
      · simp only at h
        rcases List.mem_cons.mp h with rfl | h2
        · cases hre : rest.isEmpty with
          | false =>
            simp only [hre, Bool.false_eq_true, if_false]
            exact ⟨"├── " ++ e.name ++ "/", by simp [String.append_assoc]⟩
          | true =>
            simp only [hre, if_true]
            exact ⟨"└── " ++ e.name ++ "/", by simp [String.append_assoc]⟩
        · rcases List.mem_append.mp h2 with h3 | h3
          · exact hsub line h3
          · exact ih hprest pre line h3
      · simp only at h
        rcases List.mem_cons.mp h with rfl | h2
        · cases hre : rest.isEmpty with
          | false =>
            simp only [hre, Bool.false_eq_true, if_false]
            exact ⟨"├── " ++ e.name ++ "/", by simp [String.append_assoc]⟩
          | true =>
            simp only [hre, if_true]
            exact ⟨"└── " ++ e.name ++ "/", by simp [String.append_assoc]⟩
        · exact hsub line h2
    · simp only [hd, if_false] at h
      rcases List.mem_cons.mp h with rfl | h2
      · cases hre : rest.isEmpty with
        | false =>
          simp only [hre, Bool.false_eq_true, if_false]
          exact ⟨"├── " ++ e.name, by simp [String.append_assoc]⟩
        | true =>
          simp only [hre, if_true]
          exact ⟨"└── " ++ e.name, by simp [String.append_assoc]⟩
      · exact ih hprest pre line h2

/-- Every line emitted by `print_tree node pre _` starts with `pre`: the
prefix of a line is exactly the concatenation of the continuation
segments accumulated along its ancestors. -/
theorem print_tree_lines_pre :
    ∀ (node : FSNode) (pre : String) (ib : Bool) (line : String),
      line ∈ (print_tree node pre ib).1 → ∃ s, line = pre ++ s
  | .file nm, pre, ib, line => by
    rw [print_tree]
    simp [FSNode.is_dir]
  | .baddir nm msg, pre, ib, line => by
    rw [print_tree]
    simp [FSNode.is_dir, get_dir_entries]
  | .dir nm children, pre, ib, line => by
    rw [print_tree_dir]
    intro h
    refine render_entries_lines_pre ib _ ?_ pre line h
    intro c hc p2 li hli
    exact print_tree_lines_pre c p2 ib li hli
termination_by node _ _ _ => node.size
decreasing_by
  exact size_lt_of_mem_entries hc

/-- Is this error the (dead) `Io` variant? -/
def FileTreeError.isIoErr : FileTreeError → Bool
  | .Io _ => true
  | .Walkdir _ => false
  | .InvalidPath => false

/-- Is the result an `Io` error? -/
def errIsIo : Option FileTreeError → Bool
  | none => false
  | some e => e.isIoErr

/-- Raw unfolding of `print_tree` on a readable directory, in `render_loop`
form. -/
theorem print_tree_dir_loop (nm : String) (children : List FSNode)
    (pre : String) (ib : Bool) :
    print_tree (.dir nm children) pre ib =
      render_loop (sortEntries entryLE (children.filter (keep ib))).length
        pre ib 0 (sortEntries entryLE (children.filter (keep ib))) := by
  rw [print_tree]
  simp only [FSNode.is_dir, Bool.true_eq_false, if_false, get_dir_entries]

theorem render_entries_not_io (ib : Bool) :
    ∀ (l : List FSNode)
      (hp : ∀ c ∈ l, ∀ p2 : String, errIsIo (print_tree c p2 ib).2 = false)
      (pre : String),
      errIsIo (render_entries pre ib l).2 = false := by
  intro l
  induction l with
  | nil =>
    intro hp pre
    rw [render_entries]
    rfl
  | cons e rest ih =>
    intro hp pre
    have hpe := hp e (List.mem_cons_self e rest)
    have hprest : ∀ c ∈ rest, ∀ p2 : String,
        errIsIo (print_tree c p2 ib).2 = false :=
      fun c hc => hp c (List.mem_cons_of_mem e hc)
    rw [render_entries]
    by_cases hd : e.is_dir = true
    · simp only [hd, if_true]
      rcases hs : (print_tree e (if rest.isEmpty = true then pre ++ "    "
          else pre ++ "│   ") ib) with ⟨sublines, s2⟩
      rcases s2 with _ | err
      · simp only [hs]
        exact ih hprest pre
      · simp only [hs]
        have := hpe (if rest.isEmpty = true then pre ++ "    " else pre ++ "│   ")
        rw [hs] at this
        exact this
    · simp only [hd, if_false]
      exact ih hprest pre

/-- The renderer never produces the `Io` error variant: the only error
constructions in `print_tree` and `get_dir_entries` are `InvalidPath` and
`Walkdir`. -/
theorem print_tree_not_io :
    ∀ (node : FSNode) (pre : String) (ib : Bool),
      errIsIo (print_tree node pre ib).2 = false
  | .file nm, pre, ib => by
    rw [print_tree]
    simp [FSNode.is_dir, errIsIo, FileTreeError.isIoErr]
  | .baddir nm msg, pre, ib => by
    rw [print_tree]
    simp [FSNode.is_dir, get_dir_entries, fileTreeError_ofWalkdirError,
      errIsIo, FileTreeError.isIoErr]
  | .dir nm children, pre, ib => by
    rw [print_tree_dir]
    refine render_entries_not_io ib _ ?_ pre
    intro c hc p2
    exact print_tree_not_io c p2 ib
termination_by node _ _ => node.size
decreasing_by
  exact size_lt_of_mem_entries hc

theorem stripHidden_name (c : FSNode) : (stripHidden c).name = c.name := by
  cases c with
  | file nm => rw [stripHidden]
  | dir nm children => rw [stripHidden]; rfl
  | baddir nm msg => rw [stripHidden]

theorem stripHidden_is_dir (c : FSNode) :
    (stripHidden c).is_dir = c.is_dir := by
  cases c with
  | file nm => rw [stripHidden]
  | dir nm children => rw [stripHidden]; rfl
  | baddir nm msg => rw [stripHidden]

theorem entryLE_strip (a b : FSNode) :
    entryLE (stripHidden a) (stripHidden b) = entryLE a b := by
  rw [entryLE, entryLE, stripHidden_name, stripHidden_name,
    stripHidden_is_dir, stripHidden_is_dir]

theorem stripList_eq (l : List FSNode) :
    stripList l = (l.filter fun c => !startsWithDot c.name).map stripHidden := by
  induction l with
  | nil => rw [stripList]; rfl
  | cons c rest ih =>
    rw [stripList]
    by_cases hc : startsWithDot c.name = true
    · simp [hc, ih]
    · simp only [Bool.not_eq_true] at hc
      simp [hc, ih]

theorem orderedInsert_map_strip (a : FSNode) (l : List FSNode) :
    orderedInsert entryLE (stripHidden a) (l.map stripHidden) =
      (orderedInsert entryLE a l).map stripHidden := by
  induction l with
  | nil => rfl
  | cons b rest ih =>
    rw [List.map_cons, orderedInsert, orderedInsert, entryLE_strip]
    by_cases hle : entryLE a b = true
    · simp [hle]
    · have hle2 : entryLE a b = false := by
        cases h2 : entryLE a b
        · rfl
        · exact absurd h2 hle
      simp [hle2, ih]

theorem sortEntries_map_strip (l : List FSNode) :
    sortEntries entryLE (l.map stripHidden) =
      (sortEntries entryLE l).map stripHidden := by
  induction l with
  | nil => rfl
  | cons a rest ih =>
    rw [List.map_cons, sortEntries, sortEntries, ih, orderedInsert_map_strip]

theorem filter_keep_false (l : List FSNode) : l.filter (keep false) = l := by
  induction l with
  | nil => rfl
  | cons a rest ih => simp [List.filter_cons, keep, ih]

theorem filter_keep_true (l : List FSNode) :
    l.filter (keep true) = l.filter (fun c => !startsWithDot c.name) := by
  induction l with
  | nil => rfl
  | cons a rest ih => simp [List.filter_cons, keep, ih]

theorem render_entries_strip :
    ∀ (l : List FSNode)
      (hp : ∀ c ∈ l, ∀ p2 : String,
        print_tree (stripHidden c) p2 false = print_tree c p2 true)
      (pre : String),
      render_entries pre false (l.map stripHidden) =
        render_entries pre true l := by
  intro l
  induction l with
  | nil => intro hp pre; rfl
  | cons e rest ih =>
    intro hp pre
    have hpe := hp e (List.mem_cons_self e rest)
    have hprest : ∀ c ∈ rest, ∀ p2 : String,
        print_tree (stripHidden c) p2 false = print_tree c p2 true :=
      fun c hc => hp c (List.mem_cons_of_mem e hc)
    rw [List.map_cons, render_entries, render_entries]
    have hemp : (rest.map stripHidden).isEmpty = rest.isEmpty := by
      cases rest with
      | nil => rfl
      | cons f rest2 => rfl
    rw [hemp, stripHidden_is_dir, stripHidden_name, hpe, ih hprest pre]

/-- Rendering with `ignore_hidden` set is the same as first deleting every
dot-entry from the tree (at every depth) and rendering with the filter
off: the filter removes exactly the dot-entries, before sorting and
before the last-sibling computation. -/
theorem print_tree_strip :
    ∀ (node : FSNode) (pre : String),
      print_tree (stripHidden node) pre false = print_tree node pre true
  | .file nm, pre => by
    rw [stripHidden, print_tree, print_tree]
    simp [FSNode.is_dir]
  | .baddir nm msg, pre => by
    rw [stripHidden, print_tree, print_tree]
    simp [FSNode.is_dir, get_dir_entries]
  | .dir nm children, pre => by
    rw [stripHidden, print_tree_dir, print_tree_dir, filter_keep_false,
      stripList_eq, ← filter_keep_true, sortEntries_map_strip]
    refine render_entries_strip _ ?_ pre
    intro c hc p2
    exact print_tree_strip c p2
termination_by node _ => node.size
decreasing_by
  exact size_lt_of_mem_entries hc

/-- Raw unfolding of `print_tree_chk` on a readable directory. -/
theorem print_tree_chk_dir (nm : String) (children : List FSNode)
    (pre : String) (ib : Bool) :
    print_tree_chk (.dir nm children) pre ib =
      render_loop_chk (sortEntries entryLE (children.filter (keep ib))).length
        pre ib 0 (sortEntries entryLE (children.filter (keep ib))) := by
  rw [print_tree_chk]
  simp only [FSNode.is_dir, Bool.true_eq_false, if_false, get_dir_entries]

theorem render_loop_chk_eq (ib : Bool) :
    ∀ (l : List FSNode)
      (hp : ∀ c ∈ l, ∀ p2 : String,
        print_tree_chk c p2 ib = some (print_tree c p2 ib))
      (i n : Nat), n = i + l.length → ∀ pre : String,
      render_loop_chk n pre ib i l = some (render_loop n pre ib i l) := by
  intro l
  induction l with
  | nil =>
    intro hp i n hn pre
    rw [render_loop_chk, render_loop]
  | cons e rest ih =>
    intro hp i n hn pre
    have hpe := hp e (List.mem_cons_self e rest)
    have hprest : ∀ c ∈ rest, ∀ p2 : String,
        print_tree_chk c p2 ib = some (print_tree c p2 ib) :=
      fun c hc => hp c (List.mem_cons_of_mem e hc)
    have hn0 : ¬ n = 0 := by
      rw [hn, List.length_cons]
      omega
    rw [render_loop_chk, render_loop]
    simp only [hn0, if_false]
    have hrest := ih hprest (i + 1) n
      (by rw [hn, List.length_cons]; omega) pre
    by_cases hd : e.is_dir = true
    · simp only [hd, if_true]
      rw [hpe]
      rcases hs : (print_tree e (if (i == n - 1) = true then pre ++ "    "
          else pre ++ "│   ") ib).2 with _ | err
      · simp only [hs]
        rw [hrest]
      · simp only [hs]
    · have hdf : e.is_dir = false := by
        cases h2 : e.is_dir
        · rfl
        · exact absurd h2 hd
      simp only [hdf, Bool.false_eq_true, if_false]
      rw [hrest]

/-- `print_tree_chk` never hits the underflow panic: whenever the loop
body evaluates `entries.len() - 1` the entry list is nonempty, so
`print_tree` (with truncating subtraction) computes the same value. -/
theorem print_tree_chk_eq :
    ∀ (node : FSNode) (pre : String) (ib : Bool),
      print_tree_chk node pre ib = some (print_tree node pre ib)
  | .file nm, pre, ib => by
    rw [print_tree_chk, print_tree]
    simp [FSNode.is_dir]
  | .baddir nm msg, pre, ib => by
    rw [print_tree_chk, print_tree]
    simp [FSNode.is_dir, get_dir_entries]
  | .dir nm children, pre, ib => by
    rw [print_tree_chk_dir, print_tree_dir_loop]
    refine render_loop_chk_eq ib _ ?_ 0 _ (Nat.zero_add _).symm pre
    intro c hc p2
    exact print_tree_chk_eq c p2 ib
termination_by node _ _ => node.size
decreasing_by
  exact size_lt_of_mem_entries hc

/-- Is the path argument's target a directory (`Path::is_dir`, false for a
nonexistent path)? -/
def target_is_dir : Option FSNode → Bool
  | none => false
  | some n => n.is_dir

/-- `PathBuf::file_name`, on a path given by its components: the final
component, if any. -/
def file_name (parts : List String) : Option String :=
  parts.getLast?

/-- Shared content lemma: on success, the output of a directory render is
exactly one block per sorted, filtered child. -/
theorem listing_eq (nm : String) (children : List FSNode) (pre : String)
    (ib : Bool) (h : (print_tree (.dir nm children) pre ib).2 = none) :
    (print_tree (.dir nm children) pre ib).1 =
      (withLast (sortEntries entryLE (children.filter (keep ib)))).flatMap
        (entryBlock pre ib) := by
  rw [print_tree_dir] at h ⊢
  rw [render_entries_ok pre ib _ h]

theorem run_render_not_dir (t : Option FSNode) (ib : Bool)
    (h : target_is_dir t = false) :
    run_render t ib = ([], some FileTreeError.InvalidPath) := by
  cases t with
  | none => rfl
  | some n =>
    rw [target_is_dir] at h
    rw [run_render, print_tree]
    simp [h]

/-! ## Claim theorems -/

/-- C1, counterexample: on a path naming a regular file the renderer
returns the `InvalidPath` error, yet the process exit status is 0: the
`match` at the end of `main` only prints a diagnostic, no arm sets a
non-zero exit code.  This refutes "non-zero exit status whenever the
renderer returns any error". -/
theorem c1_counterexample :
    (run_render (some (.file "a.txt")) false).2
        = some FileTreeError.InvalidPath ∧
    (main_run (some (.file "a.txt")) "a.txt" false).exitCode = 0 := by
  constructor
  · simp [run_render, print_tree, FSNode.is_dir]
  · simp [main_run, run_render, print_tree, FSNode.is_dir]

/-- C1, amended: the process exits with status 0 when the render
succeeds, and also with status 0 when the renderer returns an error (the
error only yields a diagnostic line); a non-zero exit status arises only
from the argument parser, before the renderer runs. -/
theorem c1_exit_code_always_zero (target : Option FSNode) (path : String)
    (ib : Bool) : (main_run target path ib).exitCode = 0 := by
  rw [main_run]
  rcases h : (run_render target ib).2 with _ | e
  · simp [h]
  · cases e <;> simp [h]

/-- C2: when a directory render succeeds, its output is exactly one block
per immediate child that passes the hidden-name filter, in listing order
— each block starting with the child's single line at this level, the
name carrying a trailing `/` exactly when the child is a directory — so
the level's lines have no omissions and no duplicates. -/
theorem c2_listing_exact (nm : String) (children : List FSNode)
    (pre : String) (ib : Bool)
    (h : (print_tree (.dir nm children) pre ib).2 = none) :
    (print_tree (.dir nm children) pre ib).1 =
      (withLast (sortEntries entryLE (children.filter (keep ib)))).flatMap
        (entryBlock pre ib) :=
  listing_eq nm children pre ib h

/-- C2, witness at the spec's worked example. -/
theorem c2_witness :
    (print_tree (.dir "root" [.dir "b" [], .file "a.txt"]) "" false).1 =
      (withLast (sortEntries entryLE
          ([FSNode.dir "b" [], FSNode.file "a.txt"].filter (keep false)))).flatMap
        (entryBlock "" false) :=
  c2_listing_exact "root" [.dir "b" [], .file "a.txt"] "" false (by
    simp [print_tree, FSNode.is_dir, get_dir_entries, keep, sortEntries,
      orderedInsert, entryLE, FSNode.name, render_loop, strLE, charListLE,
      startsWithDot])

/-- C3: in every listing the renderer produces, directories precede
files, and inside each of the two groups names are strictly ascending in
byte order (assuming, as on a real filesystem, that sibling names are
distinct). -/
theorem c3_sorted (nm : String) (children : List FSNode) (ib : Bool)
    (hnames : (children.map FSNode.name).Nodup)
    (entries : List FSNode)
    (h : get_dir_entries (.dir nm children) ib = .ok entries) :
    entries.Pairwise (fun a b =>
      (a.is_dir = true ∧ b.is_dir = false) ∨
      (a.is_dir = b.is_dir ∧ strLT a.name b.name = true)) := by
  simp only [get_dir_entries, Except.ok.injEq] at h
  subst h
  have hsort := pairwise_sortEntries entryLE entryLE_total entryLE_trans
    (children.filter (keep ib))
  have hnames2 : (children.map FSNode.name).Pairwise (fun a b => a ≠ b) :=
    hnames
  have hne0 : children.Pairwise (fun a b => a.name ≠ b.name) :=
    List.pairwise_map.mp hnames2
  have hne1 := List.Pairwise.filter (keep ib) hne0
  have hne : (sortEntries entryLE (children.filter (keep ib))).Pairwise
      (fun a b => a.name ≠ b.name) :=
    ((sortEntries_perm entryLE (children.filter (keep ib))).pairwise_iff
      (fun hxy => hxy.symm)).mpr hne1
  refine (hsort.and hne).imp ?_
  intro a b hab
  rcases hab with ⟨hle, hnab⟩
  rw [entryLE] at hle
  by_cases hk : a.is_dir = b.is_dir
  · right
    refine ⟨hk, ?_⟩
    simp only [hk, if_pos rfl] at hle
    rw [strLT]
    refine charListLT_of_le_of_ne _ _ hle ?_
    intro hdata
    exact hnab (String.toList_inj.mp hdata)
  · left
    simp only [hk, if_false] at hle
    refine ⟨hle, ?_⟩
    cases hb : b.is_dir with
    | false => rfl
    | true => exact absurd (hle.trans hb.symm) hk

/-- C3, witness: a mixed directory sorts as directories first, then files
by ascending name. -/
theorem c3_witness :
    ([FSNode.dir "c" [], FSNode.file "a", FSNode.file "b"] :
        List FSNode).Pairwise (fun a b =>
      (a.is_dir = true ∧ b.is_dir = false) ∨
      (a.is_dir = b.is_dir ∧ strLT a.name b.name = true)) :=
  c3_sorted "r" [.file "b", .dir "c" [], .file "a"] false (by decide) _ rfl

/-- C4: every line rendered under ancestor prefix `pre` starts with
`pre` (so prefixes are exactly the concatenation of the ancestors'
continuation segments), and in a successful listing the last entry's line
is `pre ++ "└── " ++ …` with its subtree rendered under `pre ++ "    "`,
while every other entry's line is `pre ++ "├── " ++ …` with its subtree
rendered under `pre ++ "│   "` (see `entryBlock`). -/
theorem c4_prefixes :
    (∀ (node : FSNode) (pre : String) (ib : Bool) (line : String),
      line ∈ (print_tree node pre ib).1 → ∃ s, line = pre ++ s) ∧
    (∀ (nm : String) (children : List FSNode) (pre : String) (ib : Bool),
      (print_tree (.dir nm children) pre ib).2 = none →
      (print_tree (.dir nm children) pre ib).1 =
        (withLast (sortEntries entryLE (children.filter (keep ib)))).flatMap
          (entryBlock pre ib)) :=
  ⟨print_tree_lines_pre, listing_eq⟩

/-- C4, witness. -/
theorem c4_witness :
    (∃ s, "├── b/" = "" ++ s) ∧
    (print_tree (.dir "root" [.dir "b" [], .file "a.txt"]) "" false).1 =
      (withLast (sortEntries entryLE
          ([FSNode.dir "b" [], FSNode.file "a.txt"].filter (keep false)))).flatMap
        (entryBlock "" false) :=
  ⟨c4_prefixes.1 (.dir "root" [.dir "b" [], .file "a.txt"]) "" false "├── b/"
      (by simp [print_tree, FSNode.is_dir, get_dir_entries, keep, sortEntries,
        orderedInsert, entryLE, FSNode.name, render_loop, strLE, charListLE,
        startsWithDot]),
   c4_prefixes.2 "root" [.dir "b" [], .file "a.txt"] "" false
      (by simp [print_tree, FSNode.is_dir, get_dir_entries, keep, sortEntries,
        orderedInsert, entryLE, FSNode.name, render_loop, strLE, charListLE,
        startsWithDot])⟩

/-- C5: with `ignore_hidden` set, enumeration drops exactly the entries
whose name starts with a dot, before sorting (first conjunct); and doing
so at every depth is the same as rendering, with the filter off, the tree
from which all dot-entries have been deleted — so hidden entries affect
neither the ordering nor the last-sibling computation anywhere. -/
theorem c5_hidden_filter :
    (∀ (nm : String) (children : List FSNode),
      get_dir_entries (.dir nm children) true =
        .ok (sortEntries entryLE
          (children.filter (fun c => !startsWithDot c.name)))) ∧
    (∀ (node : FSNode) (pre : String),
      print_tree (stripHidden node) pre false = print_tree node pre true) :=
  ⟨fun nm children => by rw [get_dir_entries, filter_keep_true],
   print_tree_strip⟩

/-- C6: rendering a path that is not a directory (a regular file, or a
nonexistent path) fails with `InvalidPath` and emits zero tree lines. -/
theorem c6_invalid_path (t : Option FSNode) (ib : Bool)
    (h : target_is_dir t = false) :
    run_render t ib = ([], some FileTreeError.InvalidPath) :=
  run_render_not_dir t ib h

/-- C6, witness: a regular file as the root. -/
theorem c6_witness :
    run_render (some (.file "notes.txt")) true
      = ([], some FileTreeError.InvalidPath) :=
  c6_invalid_path (some (.file "notes.txt")) true rfl

/-- C7: when a directory render fails, the sorted filtered entry list
splits into fully rendered earlier siblings (whose lines remain), the
failing directory entry — whose own line and partially rendered subtree
remain and whose error is propagated unchanged — and later siblings which
contribute no lines at all. -/
theorem c7_error_propagation (nm : String) (children : List FSNode)
    (pre : String) (ib : Bool) (lines : List String) (err : FileTreeError)
    (h : print_tree (.dir nm children) pre ib = (lines, some err)) :
    ∃ done e post sub,
      sortEntries entryLE (children.filter (keep ib)) = done ++ e :: post ∧
      e.is_dir = true ∧
      (∀ x ∈ done, x.is_dir = true →
        (print_tree x (pre ++ "│   ") ib).2 = none) ∧
      print_tree e (if post.isEmpty then pre ++ "    " else pre ++ "│   ") ib
        = (sub, some err) ∧
      lines = done.flatMap (fun x => entryBlock pre ib (x, false)) ++
        ((if post.isEmpty then pre ++ "└── " else pre ++ "├── ") ++
          e.name ++ "/") :: sub := by
  rw [print_tree_dir] at h
  exact render_entries_err pre ib _ lines err h

/-- C7, witness: a root whose single child is an unreadable directory. -/
theorem c7_witness :
    ∃ done e post sub,
      sortEntries entryLE
          ([FSNode.baddir "bad" "boom"].filter (keep false)) =
        done ++ e :: post ∧
      e.is_dir = true ∧
      (∀ x ∈ done, x.is_dir = true →
        (print_tree x ("" ++ "│   ") false).2 = none) ∧
      print_tree e (if post.isEmpty then "" ++ "    " else "" ++ "│   ") false
        = (sub, some (FileTreeError.Walkdir "boom")) ∧
      ["└── bad/"] = done.flatMap (fun x => entryBlock "" false (x, false)) ++
        ((if post.isEmpty then "" ++ "└── " else "" ++ "├── ") ++
          e.name ++ "/") :: sub :=
  c7_error_propagation "r" [.baddir "bad" "boom"] "" false
    ["└── bad/"] (FileTreeError.Walkdir "boom") (by
      simp [print_tree, FSNode.is_dir, get_dir_entries, keep, sortEntries,
        orderedInsert, FSNode.name, render_loop, startsWithDot,
        fileTreeError_ofWalkdirError])

/-- C8: on renderer failure, `main` prints exactly one diagnostic line on
the error stream, selected by the error's kind, with the invalid-path
message carrying the path argument exactly as given; on success it prints
none. -/
theorem c8_diagnostics :
    (∀ (t : Option FSNode) (p : String) (ib : Bool),
      (run_render t ib).2 = none → (main_run t p ib).errLines = []) ∧
    (∀ (t : Option FSNode) (p : String) (ib : Bool) (msg : String),
      (run_render t ib).2 = some (FileTreeError.Io msg) →
      (main_run t p ib).errLines = ["Error reading the directory: " ++ msg]) ∧
    (∀ (t : Option FSNode) (p : String) (ib : Bool) (msg : String),
      (run_render t ib).2 = some (FileTreeError.Walkdir msg) →
      (main_run t p ib).errLines = ["Error walking the directory: " ++ msg]) ∧
    (∀ (t : Option FSNode) (p : String) (ib : Bool),
      (run_render t ib).2 = some FileTreeError.InvalidPath →
      (main_run t p ib).errLines = ["Invalid directory path: " ++ p]) := by
  refine ⟨?_, ?_, ?_, ?_⟩
  · intro t p ib h
    simp [main_run, h]
  · intro t p ib msg h
    simp [main_run, h]
  · intro t p ib msg h
    simp [main_run, h]
  · intro t p ib h
    simp [main_run, h]

/-- C8, witness: the invalid-path and traversal diagnostics at concrete
inputs. -/
theorem c8_witness :
    (main_run (some (.file "notes")) "given/path" false).errLines =
      ["Invalid directory path: " ++ "given/path"] ∧
    (main_run (some (.baddir "r" "boom")) "p" false).errLines =
      ["Error walking the directory: " ++ "boom"] :=
  ⟨c8_diagnostics.2.2.2 (some (.file "notes")) "given/path" false
      (by simp [run_render, print_tree, FSNode.is_dir]),
   c8_diagnostics.2.2.1 (some (.baddir "r" "boom")) "p" false "boom"
      (by simp [run_render, print_tree, FSNode.is_dir, get_dir_entries,
        fileTreeError_ofWalkdirError])⟩

/-- C9: the renderer never returns the `Io` variant — its only error
constructions are `InvalidPath` and (via the walker conversion)
`Walkdir` — so the "Error reading the directory" branch of `main` is
unreachable. -/
theorem c9_never_io :
    (∀ (node : FSNode) (pre : String) (ib : Bool),
      errIsIo (print_tree node pre ib).2 = false) ∧
    (∀ (t : Option FSNode) (ib : Bool),
      errIsIo (run_render t ib).2 = false) := by
  refine ⟨print_tree_not_io, ?_⟩
  intro t ib
  cases t with
  | none => rfl
  | some n => exact print_tree_not_io n "" ib

/-- C10: a directory whose filtered child list is empty renders
successfully with no output; the `entries.len() - 1` subtraction is never
evaluated with an empty entry list (the checked-subtraction renderer
never panics and agrees with `print_tree` everywhere); and `file_name` of
a depth-1 entry path — parent components plus the child's name — is
always `some`, so its unwrap cannot panic. -/
theorem c10_no_panic :
    (∀ (nm : String) (children : List FSNode) (pre : String) (ib : Bool),
      children.filter (keep ib) = [] →
      print_tree (.dir nm children) pre ib = ([], none)) ∧
    (∀ (node : FSNode) (pre : String) (ib : Bool),
      print_tree_chk node pre ib = some (print_tree node pre ib)) ∧
    (∀ (parts : List String) (nm : String),
      file_name (parts ++ [nm]) = some nm) := by
  refine ⟨?_, print_tree_chk_eq, ?_⟩
  · intro nm children pre ib h
    rw [print_tree_dir, h]
    rfl
  · intro parts nm
    rw [file_name]
    exact List.getLast?_concat parts

/-- C10, witness: a directory whose only child is hidden renders as
success with no lines when `ignore_hidden` is set. -/
theorem c10_witness :
    print_tree (.dir "root" [.file ".git"]) "" true = ([], none) :=
  c10_no_panic.1 "root" [.file ".git"] "" true rfl

end Treewalker
